import Mathlib

/-!
Verification of the RSA interop shim `pal_rsa.cpp` and of the RSA core it
delegates to.  The shim functions (`DecodeRsaPublicKey`, `RsaPublicEncrypt`,
`RsaPrivateDecrypt`, `RsaSign`, `RsaVerify`, `RsaSize`, `RsaGenerateKeyEx`)
are embedded directly from the source file.  The underlying RSA primitives
(`RSA_public_encrypt`, `RSA_private_decrypt`, `RSA_sign`, `RSA_verify`,
`RSA_generate_key_ex`, `d2i_RSAPublicKey`) are not part of the repository;
they are modelled from the specification's description of the native core
(big-integer modular arithmetic, PKCS#1 v1.5 and OAEP padding, CRT-accelerated
private-key operations, probabilistic key generation).
-/

namespace RSA

/-- Fuel-indexed square-and-multiply.  `powModAux m fuel b e` computes
`b ^ e % m` provided `e ≤ fuel`; the fuel makes the recursion structural so
that concrete instances reduce in the kernel. -/
def powModAux (m : Nat) : Nat → Nat → Nat → Nat
  | 0, _, _ => 1 % m
  | fuel+1, b, e =>
    if e = 0 then 1 % m
    else
      let r := powModAux m fuel (b * b % m) (e / 2)
      if e % 2 = 1 then r * b % m else r

/-- Modelled from the spec: modular exponentiation by square-and-multiply,
the arithmetic kernel of `RSA_public_encrypt` / `RSA_private_decrypt`
(section 4.1 of the spec); the repository's shim only forwards to it. -/
def powMod (m b e : Nat) : Nat := powModAux m e b e

theorem powModAux_eq (m : Nat) :
    ∀ fuel b e, e ≤ fuel → powModAux m fuel b e = b ^ e % m := by
  intro fuel
  induction fuel with
  | zero =>
    intro b e he
    have : e = 0 := Nat.le_zero.mp he
    subst this
    simp [powModAux]
  | succ f ih =>
    intro b e he
    by_cases h0 : e = 0
    · subst h0; simp [powModAux]
    · have hpos : 0 < e := Nat.pos_of_ne_zero h0
      have hdiv : e / 2 < e := Nat.div_lt_self hpos (by norm_num)
      have hfuel : e / 2 ≤ f := by omega
      have ihr := ih (b * b % m) (e / 2) hfuel
      have hbb : (b * b % m) ^ (e / 2) % m = (b * b) ^ (e / 2) % m := by
        rw [← Nat.pow_mod]
      by_cases hodd : e % 2 = 1
      · obtain ⟨k, hk⟩ : ∃ k, e = 2 * k + 1 := ⟨e / 2, by omega⟩
        have hk2 : e / 2 = k := by omega
        simp only [powModAux, h0, if_false, hodd, if_true]
        rw [hk2] at ihr hbb
        rw [hk2, ihr, hbb, Nat.mod_mul_mod]
        congr 1
        rw [hk, pow_add, pow_mul, pow_one, pow_two]
      · obtain ⟨k, hk⟩ : ∃ k, e = 2 * k := ⟨e / 2, by omega⟩
        have hk2 : e / 2 = k := by omega
        simp only [powModAux, h0, if_false, hodd, if_false]
        rw [hk2] at ihr hbb
        rw [hk2, ihr, hbb]
        congr 1
        rw [hk, pow_mul, pow_two]

theorem powMod_eq (m b e : Nat) : powMod m b e = b ^ e % m :=
  powModAux_eq m e b e (Nat.le_refl e)

/-- Big-endian byte-sequence-to-integer conversion (OS2IP): the spec's
"interprets result as integer", byte order big-endian throughout. -/
def OS2IP (l : List Nat) : Nat := l.foldl (fun acc b => acc * 256 + b) 0

/-- Big-endian integer-to-byte-sequence conversion producing exactly `k`
bytes (I2OSP): the spec's "result returned as a fixed-size byte buffer sized
to the modulus". -/
def I2OSP : Nat → Nat → List Nat
  | 0, _ => []
  | k+1, x => I2OSP k (x / 256) ++ [x % 256]

theorem OS2IP_foldl (l : List Nat) :
    ∀ acc, l.foldl (fun acc b => acc * 256 + b) acc =
      acc * 256 ^ l.length + OS2IP l := by
  induction l with
  | nil => intro acc; simp [OS2IP]
  | cons b l ih =>
    intro acc
    show l.foldl _ (acc * 256 + b) = acc * 256 ^ (b :: l).length + OS2IP (b :: l)
    have h1 := ih (acc * 256 + b)
    have h2 : OS2IP (b :: l) = b * 256 ^ l.length + OS2IP l := by
      show l.foldl _ (0 * 256 + b) = _
      rw [ih (0 * 256 + b)]
      simp
    rw [h1, h2, List.length_cons]
    ring

theorem OS2IP_cons (b : Nat) (l : List Nat) :
    OS2IP (b :: l) = b * 256 ^ l.length + OS2IP l := by
  show l.foldl _ (0 * 256 + b) = _
  rw [OS2IP_foldl]
  simp

theorem OS2IP_append (l₁ l₂ : List Nat) :
    OS2IP (l₁ ++ l₂) = OS2IP l₁ * 256 ^ l₂.length + OS2IP l₂ := by
  show (l₁ ++ l₂).foldl _ 0 = _
  rw [List.foldl_append, OS2IP_foldl l₂]
  rfl

theorem OS2IP_lt (l : List Nat) (h : ∀ b ∈ l, b < 256) :
    OS2IP l < 256 ^ l.length := by
  induction l with
  | nil => simp [OS2IP]
  | cons b l ih =>
    have hb : b < 256 := h b (List.mem_cons_self b l)
    have hl := ih (fun x hx => h x (List.mem_cons_of_mem b hx))
    rw [OS2IP_cons, List.length_cons]
    calc b * 256 ^ l.length + OS2IP l
        < b * 256 ^ l.length + 256 ^ l.length := by omega
      _ = (b + 1) * 256 ^ l.length := by ring
      _ ≤ 256 * 256 ^ l.length := by
          exact Nat.mul_le_mul_right _ (by omega)
      _ = 256 ^ (l.length + 1) := by rw [pow_succ]; ring

theorem length_I2OSP (k x : Nat) : (I2OSP k x).length = k := by
  induction k generalizing x with
  | zero => simp [I2OSP]
  | succ k ih => simp [I2OSP, ih]

theorem OS2IP_I2OSP (k x : Nat) : OS2IP (I2OSP k x) = x % 256 ^ k := by
  induction k generalizing x with
  | zero => simp [I2OSP, OS2IP, Nat.mod_one]
  | succ k ih =>
    show OS2IP (I2OSP k (x / 256) ++ [x % 256]) = _
    rw [OS2IP_append, ih]
    have h1 : OS2IP [x % 256] = x % 256 := by simp [OS2IP]
    have h2 : (256 : Nat) ^ (k + 1) = 256 * 256 ^ k := by rw [pow_succ]; ring
    rw [h1, h2, Nat.mod_mul]
    simp [List.length_cons]
    ring

theorem OS2IP_I2OSP_of_lt {k x : Nat} (h : x < 256 ^ k) :
    OS2IP (I2OSP k x) = x := by
  rw [OS2IP_I2OSP, Nat.mod_eq_of_lt h]

theorem I2OSP_OS2IP (l : List Nat) (h : ∀ b ∈ l, b < 256) :
    I2OSP l.length (OS2IP l) = l := by
  induction l using List.reverseRecOn with
  | nil => simp [OS2IP, I2OSP]
  | append_singleton l b ih =>
    have hb : b < 256 := h b (by simp)
    have hl : ∀ x ∈ l, x < 256 := fun x hx => h x (by simp [hx])
    have hlen : (l ++ [b]).length = l.length + 1 := by simp
    rw [hlen]
    have hv : OS2IP (l ++ [b]) = OS2IP l * 256 + b := by
      rw [OS2IP_append]
      simp [OS2IP]
    show I2OSP l.length (OS2IP (l ++ [b]) / 256) ++ [OS2IP (l ++ [b]) % 256] = l ++ [b]
    have hdiv : OS2IP (l ++ [b]) / 256 = OS2IP l := by
      rw [hv]; omega
    have hmod : OS2IP (l ++ [b]) % 256 = b := by
      rw [hv]; omega
    rw [hdiv, hmod, ih hl]

/-- Fuel-indexed byte-length computation. -/
def byteLenAux : Nat → Nat → Nat
  | 0, _ => 0
  | fuel+1, n => if n = 0 then 0 else byteLenAux fuel (n / 256) + 1

/-- Byte length of an integer (the modelled `RSA_size`: the spec's
`KeySizeInBytes`). -/
def byteLen (n : Nat) : Nat := byteLenAux n n

theorem byteLenAux_zero (fuel : Nat) : byteLenAux fuel 0 = 0 := by
  cases fuel <;> simp [byteLenAux]

theorem byteLenAux_spec :
    ∀ fuel n, n ≤ fuel →
      n < 256 ^ byteLenAux fuel n ∧
        (1 ≤ n → 256 ^ (byteLenAux fuel n - 1) ≤ n) := by
  intro fuel
  induction fuel with
  | zero =>
    intro n hn
    have : n = 0 := Nat.le_zero.mp hn
    subst this
    simp [byteLenAux]
  | succ f ih =>
    intro n hn
    by_cases h0 : n = 0
    · subst h0; simp [byteLenAux]
    · have hpos : 1 ≤ n := Nat.pos_of_ne_zero h0
      have hdivlt : n / 256 < n := Nat.div_lt_self hpos (by norm_num)
      have hfuel : n / 256 ≤ f := by omega
      obtain ⟨ih1, ih2⟩ := ih (n / 256) hfuel
      simp only [byteLenAux, h0, if_false]
      constructor
      · have : n / 256 < 256 ^ byteLenAux f (n / 256) := ih1
        have := (Nat.div_lt_iff_lt_mul (by norm_num : (0:Nat) < 256)).mp this
        calc n < 256 ^ byteLenAux f (n / 256) * 256 := this
          _ = 256 ^ (byteLenAux f (n / 256) + 1) := by rw [pow_succ]
      · intro _
        by_cases hd : n / 256 = 0
        · rw [hd, byteLenAux_zero]
          simpa using hpos
        · have hdp : 1 ≤ n / 256 := Nat.pos_of_ne_zero hd
          have haux : 1 ≤ byteLenAux f (n / 256) := by
            have := ih1
            by_contra hc
            push_neg at hc
            interval_cases h : byteLenAux f (n / 256)
            · simp [h] at this; omega
          have h2 := ih2 hdp
          have hstep : 256 ^ (byteLenAux f (n / 256) + 1 - 1) =
              256 ^ (byteLenAux f (n / 256) - 1) * 256 := by
            have : byteLenAux f (n / 256) + 1 - 1 =
                (byteLenAux f (n / 256) - 1) + 1 := by omega
            rw [this, pow_succ]
          rw [hstep]
          calc 256 ^ (byteLenAux f (n / 256) - 1) * 256
              ≤ (n / 256) * 256 := Nat.mul_le_mul_right _ h2
            _ ≤ n := Nat.div_mul_le_self n 256

theorem byteLen_lt (n : Nat) : n < 256 ^ byteLen n :=
  (byteLenAux_spec n n (Nat.le_refl n)).1

theorem byteLen_le {n : Nat} (h : 1 ≤ n) : 256 ^ (byteLen n - 1) ≤ n :=
  (byteLenAux_spec n n (Nat.le_refl n)).2 h

theorem byteLen_pos {n : Nat} (h : 1 ≤ n) : 1 ≤ byteLen n := by
  by_contra hc
  push_neg at hc
  have h0 : byteLen n = 0 := by omega
  have := byteLen_lt n
  rw [h0] at this
  simp at this
  omega

/-! ### Number-theoretic core of RSA

`m ^ (e·d) ≡ m (mod p·q)` for distinct primes `p, q` and `e·d ≡ 1
(mod λ(n))`, and correctness of the Garner CRT recombination.  These are the
invariants the spec states for the data model (section 3) and for the
CRT-accelerated private-key operation (section 4.5). -/

theorem pow_congr_of_le {p m a b : Nat} (hp : p.Prime) (hle : a ≤ b)
    (hab : a ≡ b [MOD p - 1]) (ha : 0 < a) : m ^ a ≡ m ^ b [MOD p] := by
  have hdvd : (p - 1) ∣ b - a := (Nat.modEq_iff_dvd' hle).mp hab
  obtain ⟨t, ht⟩ := hdvd
  have hb : b = a + (p - 1) * t := by omega
  rw [hb, pow_add, pow_mul]
  by_cases hpm : p ∣ m
  · have h1 : m ^ a ≡ 0 [MOD p] :=
      (Nat.modEq_zero_iff_dvd).mpr (dvd_pow hpm (by omega))
    have h2 : m ^ a * (m ^ (p - 1)) ^ t ≡ 0 [MOD p] :=
      (Nat.modEq_zero_iff_dvd).mpr
        (Dvd.dvd.mul_right (dvd_pow hpm (by omega)) _)
    exact h1.trans h2.symm
  · have hco : m.Coprime p :=
      Nat.coprime_comm.mp ((Nat.Prime.coprime_iff_not_dvd hp).mpr hpm)
    have heuler : m ^ (p - 1) ≡ 1 [MOD p] := by
      have h := Nat.ModEq.pow_totient hco
      rwa [Nat.totient_prime hp] at h
    have h2 : m ^ a * (m ^ (p - 1)) ^ t ≡ m ^ a * 1 ^ t [MOD p] :=
      Nat.ModEq.mul (Nat.ModEq.refl _) (heuler.pow t)
    simp only [one_pow, mul_one] at h2
    exact h2.symm

theorem prime_pow_exp_congr {p m a b : Nat} (hp : p.Prime)
    (hab : a ≡ b [MOD p - 1]) (ha : 0 < a) (hb : 0 < b) :
    m ^ a ≡ m ^ b [MOD p] := by
  rcases le_total a b with h | h
  · exact pow_congr_of_le hp h hab ha
  · exact (pow_congr_of_le hp h hab.symm hb).symm

theorem pow_ed_self {p q e d m : Nat} (hp : p.Prime) (hq : q.Prime)
    (hpq : p ≠ q) (hed : e * d ≡ 1 [MOD Nat.lcm (p - 1) (q - 1)])
    (hepos : 0 < e) (hdpos : 0 < d) :
    m ^ (e * d) ≡ m [MOD p * q] := by
  have hedpos : 0 < e * d := Nat.mul_pos hepos hdpos
  have h1 : m ^ (e * d) ≡ m ^ 1 [MOD p] :=
    prime_pow_exp_congr hp
      (Nat.ModEq.of_dvd (Nat.dvd_lcm_left _ _) hed) hedpos Nat.one_pos
  have h2 : m ^ (e * d) ≡ m ^ 1 [MOD q] :=
    prime_pow_exp_congr hq
      (Nat.ModEq.of_dvd (Nat.dvd_lcm_right _ _) hed) hedpos Nat.one_pos
  have hco : Nat.Coprime p q := (Nat.coprime_primes hp hq).mpr hpq
  have := (Nat.modEq_and_modEq_iff_modEq_mul hco).mp ⟨h1, h2⟩
  simpa using this

theorem rsa_core {p q e d m : Nat} (hp : p.Prime) (hq : q.Prime)
    (hpq : p ≠ q) (hed : e * d ≡ 1 [MOD Nat.lcm (p - 1) (q - 1)])
    (hepos : 0 < e) (hdpos : 0 < d) (hm : m < p * q) :
    (m ^ e % (p * q)) ^ d % (p * q) = m := by
  have step1 : (m ^ e % (p * q)) ^ d ≡ (m ^ e) ^ d [MOD p * q] :=
    (Nat.mod_modEq (m ^ e) (p * q)).pow d
  have step2 : (m ^ e) ^ d = m ^ (e * d) := (pow_mul m e d).symm
  have step3 : m ^ (e * d) ≡ m [MOD p * q] :=
    pow_ed_self hp hq hpq hed hepos hdpos
  have h : (m ^ e % (p * q)) ^ d ≡ m [MOD p * q] := by
    rw [step2] at step1
    exact step1.trans step3
  have h' : (m ^ e % (p * q)) ^ d % (p * q) = m % (p * q) := h
  rwa [Nat.mod_eq_of_lt hm] at h'

theorem rsa_core_powMod {p q e d m : Nat} (hp : p.Prime) (hq : q.Prime)
    (hpq : p ≠ q) (hed : e * d ≡ 1 [MOD Nat.lcm (p - 1) (q - 1)])
    (hepos : 0 < e) (hdpos : 0 < d) (hm : m < p * q) :
    powMod (p * q) (powMod (p * q) m e) d = m := by
  rw [powMod_eq, powMod_eq]
  exact rsa_core hp hq hpq hed hepos hdpos hm

/-- Modelled from the spec: Garner CRT recombination used by the
CRT-accelerated private-key operation of `RSA_private_decrypt`
(spec section 4.5: "compute mod p and mod q separately, combine via CRT"). -/
def crtCombine (p q dP dQ qInv c : Nat) : Nat :=
  powMod q c dQ + qInv * (powMod p c dP + p - powMod q c dQ % p) % p * q

theorem crtCombine_eq {p q d dP dQ qInv c : Nat} (hp : p.Prime)
    (hq : q.Prime) (hpq : p ≠ q) (hdP : dP ≡ d [MOD p - 1])
    (hdPpos : 0 < dP) (hdQ : dQ ≡ d [MOD q - 1]) (hdQpos : 0 < dQ)
    (hqInv : qInv * q ≡ 1 [MOD p]) (hdpos : 0 < d) :
    crtCombine p q dP dQ qInv c = powMod (p * q) c d := by
  have hppos : 0 < p := hp.pos
  have hqpos : 0 < q := hq.pos
  rw [powMod_eq]
  set m1 := powMod p c dP with hm1def
  set m2 := powMod q c dQ with hm2def
  set h := qInv * (m1 + p - m2 % p) % p with hhdef
  have hm1lt : m1 < p := by rw [hm1def, powMod_eq]; exact Nat.mod_lt _ hppos
  have hm2lt : m2 < q := by rw [hm2def, powMod_eq]; exact Nat.mod_lt _ hqpos
  have hhlt : h < p := Nat.mod_lt _ hppos
  have hm1cong : m1 ≡ c ^ d [MOD p] := by
    rw [hm1def, powMod_eq]
    exact (Nat.mod_modEq _ _).trans (prime_pow_exp_congr hp hdP hdPpos hdpos)
  have hm2cong : m2 ≡ c ^ d [MOD q] := by
    rw [hm2def, powMod_eq]
    exact (Nat.mod_modEq _ _).trans (prime_pow_exp_congr hq hdQ hdQpos hdpos)
  have hlt : m2 + h * q < p * q := by
    have h1 : h * q ≤ (p - 1) * q := Nat.mul_le_mul_right q (by omega)
    have h2 : (p - 1) * q + q = p * q := by
      have : (p - 1) * q + q = (p - 1 + 1) * q := by ring
      rw [this, Nat.sub_add_cancel hppos]
    omega
  have hmodq : m2 + h * q ≡ c ^ d [MOD q] := by
    have : (m2 + h * q) % q = m2 % q := Nat.add_mul_mod_self_right m2 h q
    exact (Nat.ModEq.trans this hm2cong)
  have hmodp : m2 + h * q ≡ c ^ d [MOD p] := by
    have s1 : m2 + h * q ≡ m2 + qInv * (m1 + p - m2 % p) * q [MOD p] :=
      Nat.ModEq.add_left m2 ((Nat.mod_modEq _ p).mul_right q)
    have s2 : qInv * (m1 + p - m2 % p) * q =
        (m1 + p - m2 % p) * (qInv * q) := by ring
    have s3 : (m1 + p - m2 % p) * (qInv * q) ≡
        (m1 + p - m2 % p) * 1 [MOD p] := Nat.ModEq.mul_left _ hqInv
    have s4 : m2 + h * q ≡ m2 + (m1 + p - m2 % p) [MOD p] := by
      refine s1.trans ?_
      rw [s2]
      have := Nat.ModEq.add_left m2 s3
      simpa using this
    have hle : m2 % p ≤ m1 + p := by
      have := Nat.mod_lt m2 hppos
      omega
    have s5 : m2 + (m1 + p - m2 % p) ≡ m2 % p + (m1 + p - m2 % p) [MOD p] :=
      Nat.ModEq.add_right _ (Nat.mod_modEq m2 p).symm
    have s6 : m2 % p + (m1 + p - m2 % p) = m1 + p := Nat.add_sub_cancel' hle
    have s7 : m1 + p ≡ m1 [MOD p] := by
      have : (m1 + p) % p = m1 % p := Nat.add_mod_right m1 p
      exact this
    exact s4.trans (s5.trans (by rw [s6]; exact s7.trans hm1cong))
  have hco : Nat.Coprime p q := (Nat.coprime_primes hp hq).mpr hpq
  have hcomb : m2 + h * q ≡ c ^ d [MOD p * q] :=
    (Nat.modEq_and_modEq_iff_modEq_mul hco).mp ⟨hmodp, hmodq⟩
  have hfinal : (m2 + h * q) % (p * q) = c ^ d % (p * q) := hcomb
  rwa [Nat.mod_eq_of_lt hlt] at hfinal

/-! ### Data model: error taxonomy, keys, padding modes (spec sections 3, 7) -/

inductive Err where
  | MalformedKey
  | InvalidKeyParameters
  | KeyTooSmall
  | GenerationFailed
  | MessageTooLong
  | InvalidCiphertext
  | InvalidPadding
  | InvalidInput
  | EntropyUnavailable
deriving DecidableEq

/-- RSA public key `{n, e}` (spec section 3). -/
structure PublicKey where
  n : Nat
  e : Nat
deriving DecidableEq

/-- CRT parameters `dP = d mod (p−1)`, `dQ = d mod (q−1)`, `qInv = q⁻¹ mod p`
(spec section 3). -/
structure CrtParams where
  p : Nat
  q : Nat
  dP : Nat
  dQ : Nat
  qInv : Nat
deriving DecidableEq

/-- RSA private key `{n, d, optionally CRT parameters}` (spec section 3). -/
structure PrivateKey where
  n : Nat
  d : Nat
  crt : Option CrtParams
deriving DecidableEq

/-- Padding scheme selector (spec sections 4.4 and 9: the shim's boolean flag
generalized to an enumerated mode). -/
inductive Padding where
  | pkcs1
  | oaep
deriving DecidableEq

/-! ### Byte scanners

The decoders below examine every byte of their input with no early exit, as
the spec's constant-time requirement demands; each scanner returns its result
together with the number of bytes examined. -/

/-- Index of the first zero byte (the input length when there is none), and
the number of bytes examined (always all of them). -/
def zeroScan : List Nat → Nat × Nat
  | [] => (0, 0)
  | b :: l =>
    let r := zeroScan l
    (if b = 0 then 0 else r.1 + 1, r.2 + 1)

theorem zeroScan_steps (l : List Nat) : (zeroScan l).2 = l.length := by
  induction l with
  | nil => rfl
  | cons b l ih => simp [zeroScan, ih]

theorem zeroScan_append (ps m : List Nat) (h : ∀ b ∈ ps, b ≠ 0) :
    (zeroScan (ps ++ 0 :: m)).1 = ps.length := by
  induction ps with
  | nil => simp [zeroScan]
  | cons b l ih =>
    have hb : b ≠ 0 := h b (List.mem_cons_self b l)
    have hl := ih (fun x hx => h x (List.mem_cons_of_mem b hx))
    simp [zeroScan, hb, hl]

theorem zeroScan_lt_of_append (ps m : List Nat) :
    (zeroScan (ps ++ 0 :: m)).1 ≤ ps.length := by
  induction ps with
  | nil => simp [zeroScan]
  | cons b l ih =>
    have hstep : (zeroScan ((b :: l) ++ 0 :: m)).1 =
        if b = 0 then 0 else (zeroScan (l ++ 0 :: m)).1 + 1 := rfl
    rw [hstep]
    by_cases hb : b = 0
    · simp [hb]
    · rw [if_neg hb, List.length_cons]
      omega

/-- Index of the first nonzero byte, and the number of bytes examined. -/
def nonzeroScan : List Nat → Nat × Nat
  | [] => (0, 0)
  | b :: l =>
    let r := nonzeroScan l
    (if b = 0 then r.1 + 1 else 0, r.2 + 1)

theorem nonzeroScan_steps (l : List Nat) : (nonzeroScan l).2 = l.length := by
  induction l with
  | nil => rfl
  | cons b l ih => simp [nonzeroScan, ih]

theorem nonzeroScan_replicate (t : Nat) {b : Nat} (hb : b ≠ 0)
    (m : List Nat) : (nonzeroScan (List.replicate t 0 ++ b :: m)).1 = t := by
  induction t with
  | zero => simp [nonzeroScan, hb]
  | succ t ih => simpa [List.replicate_succ, nonzeroScan] using ih

/-- Constant-time list comparison: compares position by position with no
early exit, returning the verdict and the number of positions examined. -/
def eqScan : List Nat → List Nat → Bool × Nat
  | a :: l, b :: m =>
    let r := eqScan l m
    ((a == b) && r.1, r.2 + 1)
  | [], [] => (true, 0)
  | _, _ => (false, 0)

theorem eqScan_self (l : List Nat) : eqScan l l = (true, l.length) := by
  induction l with
  | nil => rfl
  | cons b l ih => simp [eqScan, ih]

theorem eqScan_steps (l₁ l₂ : List Nat) :
    (eqScan l₁ l₂).2 = min l₁.length l₂.length := by
  induction l₁ generalizing l₂ with
  | nil => cases l₂ <;> simp [eqScan]
  | cons a l ih =>
    cases l₂ with
    | nil => simp [eqScan]
    | cons b m => simp [eqScan, ih m]; omega

/-! ### Byte-wise XOR and MGF1 (spec section 4.4) -/

/-- Byte-wise XOR of two byte sequences. -/
def xorB (a b : List Nat) : List Nat := List.zipWith (fun x y => x ^^^ y) a b

theorem length_xorB (a b : List Nat) :
    (xorB a b).length = min a.length b.length := List.length_zipWith _ _ _

theorem xorB_xorB (a b : List Nat) (h : a.length = b.length) :
    xorB (xorB a b) b = a := by
  induction a generalizing b with
  | nil => cases b <;> simp [xorB]
  | cons x l ih =>
    cases b with
    | nil => simp at h
    | cons y m =>
      simp only [xorB, List.zipWith_cons_cons]
      have := ih m (by simpa using h)
      simp only [xorB] at this
      simp [this, Nat.xor_cancel_right]

theorem xorB_lt (a b : List Nat) (ha : ∀ x ∈ a, x < 256)
    (hb : ∀ x ∈ b, x < 256) : ∀ x ∈ xorB a b, x < 256 := by
  induction a generalizing b with
  | nil => simp [xorB]
  | cons x l ih =>
    cases b with
    | nil => simp [xorB]
    | cons y m =>
      intro z hz
      simp only [xorB, List.zipWith_cons_cons, List.mem_cons] at hz
      rcases hz with hz | hz
      · subst hz
        have hx : x < 256 := ha x (List.mem_cons_self _ _)
        have hy : y < 256 := hb y (List.mem_cons_self _ _)
        have h256 : (256 : Nat) = 2 ^ 8 := by norm_num
        rw [h256] at hx hy ⊢
        exact Nat.xor_lt_two_pow hx hy
      · exact ih m (fun u hu => ha u (List.mem_cons_of_mem _ hu))
          (fun u hu => hb u (List.mem_cons_of_mem _ hu)) z hz

/-- Hash blocks `hash(seed ‖ C(0)) ‖ … ‖ hash(seed ‖ C(c−1))` with a 4-byte
big-endian counter, as MGF1 prescribes. -/
def mgfBlocks (hash : List Nat → List Nat) (seed : List Nat) : Nat → List Nat
  | 0 => []
  | c + 1 => mgfBlocks hash seed c ++ hash (seed ++ I2OSP 4 c)

/-- Modelled from the spec: the MGF1 mask generation function (spec
section 4.4 and glossary), parametric in the hash function, which is an
external collaborator. -/
def MGF1 (hash : List Nat → List Nat) (hLen : Nat) (seed : List Nat)
    (len : Nat) : List Nat :=
  (mgfBlocks hash seed ((len + hLen - 1) / hLen)).take len

theorem length_mgfBlocks {hash : List Nat → List Nat} {hLen : Nat}
    (hH : ∀ x, (hash x).length = hLen) (seed : List Nat) (c : Nat) :
    (mgfBlocks hash seed c).length = c * hLen := by
  induction c with
  | zero => simp [mgfBlocks]
  | succ c ih => simp [mgfBlocks, ih, hH]; ring

theorem le_ceilDiv_mul (len hLen : Nat) (hpos : 0 < hLen) :
    len ≤ (len + hLen - 1) / hLen * hLen := by
  have hk := Nat.div_add_mod (len + hLen - 1) hLen
  have hs : (len + hLen - 1) % hLen < hLen := Nat.mod_lt _ hpos
  rw [Nat.mul_comm]
  omega

theorem length_MGF1 {hash : List Nat → List Nat} {hLen : Nat}
    (hH : ∀ x, (hash x).length = hLen) (hpos : 0 < hLen)
    (seed : List Nat) (len : Nat) : (MGF1 hash hLen seed len).length = len := by
  simp only [MGF1, List.length_take, length_mgfBlocks hH]
  exact Nat.min_eq_left (le_ceilDiv_mul len hLen hpos)

theorem mem_mgfBlocks {hash : List Nat → List Nat} {seed : List Nat}
    {c b : Nat} (hb : b ∈ mgfBlocks hash seed c) : ∃ x, b ∈ hash x := by
  induction c with
  | zero => simp [mgfBlocks] at hb
  | succ c ih =>
    simp only [mgfBlocks, List.mem_append] at hb
    rcases hb with hb | hb
    · exact ih hb
    · exact ⟨_, hb⟩

theorem MGF1_lt {hash : List Nat → List Nat} {hLen : Nat}
    (hB : ∀ x, ∀ b ∈ hash x, b < 256) (seed : List Nat) (len : Nat) :
    ∀ b ∈ MGF1 hash hLen seed len, b < 256 := by
  intro b hb
  have hb' : b ∈ mgfBlocks hash seed ((len + hLen - 1) / hLen) :=
    List.mem_of_mem_take hb
  obtain ⟨x, hx⟩ := mem_mgfBlocks hb'
  exact hB x b hx

/-! ### Padding schemes (spec section 4.4) -/

/-- Modelled from the spec: PKCS#1 v1.5 encryption encoding
`00 02 ‖ PS ‖ 00 ‖ M` (spec section 4.4), where `PS` is `k − L − 3` nonzero
random bytes supplied by the caller (entropy is an external collaborator;
an unusable supply is `EntropyUnavailable`).  Requires `L ≤ k − 11`, failing
with `MessageTooLong` otherwise. -/
def pkcs1Pad (k : Nat) (ps msg : List Nat) : Except Err (List Nat) :=
  if k < msg.length + 11 then .error .MessageTooLong
  else if ps.length = k - msg.length - 3 ∧ ∀ b ∈ ps, 0 < b ∧ b < 256 then
    .ok ([0, 2] ++ ps ++ [0] ++ msg)
  else .error .EntropyUnavailable

/-- Modelled from the spec: PKCS#1 v1.5 encryption decoding (spec
section 4.4).  Every byte is examined exactly once (the second component is
the examination count) and any structural mismatch fails with the single
generic `InvalidPadding`. -/
def pkcs1UnpadT (em : List Nat) : Except Err (List Nat) × Nat :=
  match em with
  | b0 :: b1 :: rest =>
    let zs := zeroScan rest
    (if b0 = 0 ∧ b1 = 2 ∧ zs.1 < rest.length ∧ 8 ≤ zs.1 then
      .ok (rest.drop (zs.1 + 1))
    else .error .InvalidPadding, zs.2 + 2)
  | l => (.error .InvalidPadding, l.length)

theorem pkcs1Pad_tooLong {k : Nat} (ps msg : List Nat)
    (h : k < msg.length + 11) : pkcs1Pad k ps msg = .error .MessageTooLong := by
  simp [pkcs1Pad, h]

theorem pkcs1Pad_ok {k : Nat} {ps msg : List Nat}
    (hlen : msg.length + 11 ≤ k) (hps : ps.length = k - msg.length - 3)
    (hbytes : ∀ b ∈ ps, 0 < b ∧ b < 256) :
    pkcs1Pad k ps msg = .ok ([0, 2] ++ ps ++ [0] ++ msg) := by
  have h1 : ¬ k < msg.length + 11 := by omega
  simp only [pkcs1Pad]
  rw [if_neg h1, if_pos ⟨hps, hbytes⟩]

theorem pkcs1UnpadT_pad {ps msg : List Nat} (hps8 : 8 ≤ ps.length)
    (hpsnz : ∀ b ∈ ps, b ≠ 0) :
    (pkcs1UnpadT ([0, 2] ++ ps ++ [0] ++ msg)).1 = .ok msg := by
  have hrw : [0, 2] ++ ps ++ [0] ++ msg = 0 :: 2 :: (ps ++ 0 :: msg) := by
    simp
  rw [hrw]
  have hz := zeroScan_append ps msg hpsnz
  have hlt : (zeroScan (ps ++ 0 :: msg)).1 < (ps ++ 0 :: msg).length := by
    rw [hz]; simp
  have hdrop : (ps ++ 0 :: msg).drop ((zeroScan (ps ++ 0 :: msg)).1 + 1) =
      msg := by
    rw [hz]
    have : ps ++ 0 :: msg = (ps ++ [0]) ++ msg := by simp
    rw [this]
    exact List.drop_left' (by simp)
  simp only [pkcs1UnpadT]
  rw [if_pos ⟨trivial, trivial, hlt, by omega⟩, hdrop]

theorem pkcs1UnpadT_error (em : List Nat) (ε : Err)
    (h : (pkcs1UnpadT em).1 = .error ε) : ε = .InvalidPadding := by
  match em with
  | [] =>
    have h2 : Err.InvalidPadding = ε := by simpa [pkcs1UnpadT] using h
    exact h2.symm
  | [b] =>
    have h2 : Err.InvalidPadding = ε := by simpa [pkcs1UnpadT] using h
    exact h2.symm
  | b0 :: b1 :: rest =>
    simp only [pkcs1UnpadT] at h
    split at h
    · exact absurd h (by simp)
    · have h2 : Err.InvalidPadding = ε := by simpa using h
      exact h2.symm

theorem pkcs1UnpadT_steps (em : List Nat) : (pkcs1UnpadT em).2 = em.length := by
  match em with
  | [] => rfl
  | [b] => rfl
  | b0 :: b1 :: rest =>
    simp only [pkcs1UnpadT]
    rw [zeroScan_steps]
    simp

/-- Modelled from the spec: OAEP encoding (spec section 4.4): the data block
`lHash ‖ PS ‖ 01 ‖ M` is masked with `MGF1(seed)`, the seed is masked with
`MGF1(maskedDB)`, and the result is `00 ‖ maskedSeed ‖ maskedDB`.  Requires
`L ≤ k − 2·hLen − 2`, failing with `MessageTooLong` otherwise; the random
seed is supplied by the caller. -/
def oaepPad (hash : List Nat → List Nat) (hLen k : Nat)
    (seed msg : List Nat) : Except Err (List Nat) :=
  if k < msg.length + 2 * hLen + 2 then .error .MessageTooLong
  else if seed.length = hLen ∧ ∀ b ∈ seed, b < 256 then
    let db := hash [] ++
      (List.replicate (k - msg.length - 2 * hLen - 2) 0 ++ (1 :: msg))
    let maskedDB := xorB db (MGF1 hash hLen seed (k - hLen - 1))
    let maskedSeed := xorB seed (MGF1 hash hLen maskedDB hLen)
    .ok (0 :: (maskedSeed ++ maskedDB))
  else .error .EntropyUnavailable

/-- Modelled from the spec: OAEP decoding (spec section 4.4): unmask the
seed and the data block, then validate the leading byte, the `lHash`
comparison and the padding structure, examining every byte (the second
component counts examined bytes) and failing uniformly with
`InvalidPadding` regardless of which check failed. -/
def oaepUnpadT (hash : List Nat → List Nat) (hLen : Nat) (em : List Nat) :
    Except Err (List Nat) × Nat :=
  match em with
  | y :: rest =>
    let maskedSeed := rest.take hLen
    let maskedDB := rest.drop hLen
    let seed := xorB maskedSeed (MGF1 hash hLen maskedDB hLen)
    let db := xorB maskedDB (MGF1 hash hLen seed maskedDB.length)
    let lh := eqScan (db.take hLen) (hash [])
    let zs := nonzeroScan (db.drop hLen)
    (if y = 0 ∧ 2 * hLen + 2 ≤ rest.length + 1 ∧ lh.1 = true ∧
        ((db.drop hLen).drop zs.1).head? = some 1 then
      .ok (((db.drop hLen).drop zs.1).drop 1)
    else .error .InvalidPadding,
    1 + maskedSeed.length + maskedDB.length + lh.2 + zs.2)
  | l => (.error .InvalidPadding, l.length)

theorem oaepPad_tooLong {hash : List Nat → List Nat} {hLen k : Nat}
    (seed msg : List Nat) (h : k < msg.length + 2 * hLen + 2) :
    oaepPad hash hLen k seed msg = .error .MessageTooLong := by
  simp [oaepPad, h]

theorem oaep_roundtrip {hash : List Nat → List Nat} {hLen k : Nat}
    {seed msg em : List Nat}
    (hH : ∀ x, (hash x).length = hLen) (hpos : 0 < hLen)
    (hlen : msg.length + 2 * hLen + 2 ≤ k)
    (hem : oaepPad hash hLen k seed msg = .ok em) :
    (oaepUnpadT hash hLen em).1 = .ok msg := by
  have h1 : ¬ k < msg.length + 2 * hLen + 2 := by omega
  unfold oaepPad at hem
  rw [if_neg h1] at hem
  by_cases h2 : seed.length = hLen ∧ ∀ b ∈ seed, b < 256
  swap
  · rw [if_neg h2] at hem
    exact absurd hem (by simp)
  obtain ⟨hseed, hseedB⟩ := h2
  rw [if_pos ⟨hseed, hseedB⟩] at hem
  simp only at hem
  set psLen := k - msg.length - 2 * hLen - 2 with hpsdef
  set db := hash [] ++ (List.replicate psLen 0 ++ (1 :: msg)) with hdbdef
  set mdb := xorB db (MGF1 hash hLen seed (k - hLen - 1)) with hmdbdef
  set msd := xorB seed (MGF1 hash hLen mdb hLen) with hmsddef
  have hemv : em = 0 :: (msd ++ mdb) := by
    have := hem
    simp only [Except.ok.injEq] at this
    exact this.symm
  subst hemv
  have hdbH : (hash []).length = hLen := hH []
  have hdblen : db.length = k - hLen - 1 := by
    rw [hdbdef]
    simp [hdbH, List.length_replicate]
    omega
  have hmgf1len : (MGF1 hash hLen seed (k - hLen - 1)).length = k - hLen - 1 :=
    length_MGF1 hH hpos _ _
  have hmdblen : mdb.length = k - hLen - 1 := by
    rw [hmdbdef, length_xorB, hdblen, hmgf1len, Nat.min_self]
  have hmgf2len : (MGF1 hash hLen mdb hLen).length = hLen :=
    length_MGF1 hH hpos _ _
  have hmsdlen : msd.length = hLen := by
    rw [hmsddef, length_xorB, hseed, hmgf2len, Nat.min_self]
  have htake : (msd ++ mdb).take hLen = msd := List.take_left' hmsdlen
  have hdropr : (msd ++ mdb).drop hLen = mdb := List.drop_left' hmsdlen
  have hseedrec : xorB msd (MGF1 hash hLen mdb hLen) = seed := by
    rw [hmsddef]
    exact xorB_xorB seed _ (by rw [hseed, hmgf2len])
  have hdbrec : xorB mdb (MGF1 hash hLen seed mdb.length) = db := by
    rw [hmdblen, hmdbdef]
    exact xorB_xorB db _ (by rw [hdblen, hmgf1len])
  have hlha : db.take hLen = hash [] := by
    rw [hdbdef]
    exact List.take_left' hdbH
  have hdropdb : db.drop hLen = List.replicate psLen 0 ++ (1 :: msg) := by
    rw [hdbdef]
    exact List.drop_left' hdbH
  have hzs : (nonzeroScan (List.replicate psLen 0 ++ (1 :: msg))).1 = psLen :=
    nonzeroScan_replicate psLen (by norm_num) msg
  have hdrop2 : (List.replicate psLen 0 ++ (1 :: msg)).drop psLen =
      1 :: msg := List.drop_left' (List.length_replicate psLen 0)
  have hrestlen : (msd ++ mdb).length = k - 1 := by
    rw [List.length_append, hmsdlen, hmdblen]
    omega
  simp only [oaepUnpadT, htake, hdropr, hseedrec, hdbrec, hlha, hdropdb,
    hzs, hdrop2, eqScan_self]
  rw [if_pos]
  · simp
  · exact ⟨trivial, by rw [hrestlen]; omega, trivial, rfl⟩

theorem oaepUnpadT_steps_cons {hash : List Nat → List Nat} {hLen : Nat}
    (hH : ∀ x, (hash x).length = hLen) (hpos : 0 < hLen) (y : Nat)
    (rest : List Nat) :
    (oaepUnpadT hash hLen (y :: rest)).2 =
      1 + min hLen rest.length + (rest.length - hLen) +
        min (min hLen (rest.length - hLen)) hLen +
        (rest.length - hLen - hLen) := by
  have hmdb : (rest.drop hLen).length = rest.length - hLen :=
    List.length_drop hLen rest
  have hdblen :
      (xorB (rest.drop hLen)
        (MGF1 hash hLen
          (xorB (rest.take hLen) (MGF1 hash hLen (rest.drop hLen) hLen))
          (rest.length - hLen))).length = rest.length - hLen := by
    rw [length_xorB, length_MGF1 hH hpos, hmdb, Nat.min_self]
  simp only [oaepUnpadT]
  rw [eqScan_steps, nonzeroScan_steps]
  simp only [List.length_take, List.length_drop, hH, hdblen]

theorem oaepUnpadT_error (hash : List Nat → List Nat) (hLen : Nat)
    (em : List Nat) (ε : Err) (h : (oaepUnpadT hash hLen em).1 = .error ε) :
    ε = .InvalidPadding := by
  match em with
  | [] =>
    have h2 : Err.InvalidPadding = ε := by simpa [oaepUnpadT] using h
    exact h2.symm
  | y :: rest =>
    simp only [oaepUnpadT] at h
    split at h
    · exact absurd h (by simp)
    · have h2 : Err.InvalidPadding = ε := by simpa using h
      exact h2.symm

/-! ### Encrypt / decrypt / sign / verify (spec section 4.5) -/

/-- The invariants the spec states for CRT parameters carried by a private
key (spec section 3). -/
def CrtConsistent (key : PrivateKey) : Prop :=
  match key.crt with
  | none => True
  | some t => key.n = t.p * t.q ∧ t.p.Prime ∧ t.q.Prime ∧ t.p ≠ t.q ∧
      t.dP ≡ key.d [MOD t.p - 1] ∧ 0 < t.dP ∧
      t.dQ ≡ key.d [MOD t.q - 1] ∧ 0 < t.dQ ∧
      t.qInv * t.q ≡ 1 [MOD t.p] ∧ 0 < key.d

/-- Modelled from the spec: private-key exponentiation, CRT-accelerated when
CRT parameters are present (spec section 4.5). -/
def rsaPrivGo (key : PrivateKey) (c : Nat) : Nat :=
  match key.crt with
  | some t => crtCombine t.p t.q t.dP t.dQ t.qInv c
  | none => powMod key.n c key.d

theorem rsaPrivGo_eq (key : PrivateKey) (hc : CrtConsistent key) (c : Nat) :
    rsaPrivGo key c = powMod key.n c key.d := by
  cases hcrt : key.crt with
  | none => simp [rsaPrivGo, hcrt]
  | some t =>
    unfold CrtConsistent at hc
    rw [hcrt] at hc
    obtain ⟨hn, hp, hq, hpq, hdP, hdPpos, hdQ, hdQpos, hqinv, hd⟩ := hc
    simp only [rsaPrivGo, hcrt, hn]
    exact crtCombine_eq hp hq hpq hdP hdPpos hdQ hdQpos hqinv hd

/-- Modelled from the spec: `RSA_public_encrypt` (spec section 4.5): pad the
message according to the padding mode, interpret the result as an integer,
raise it to the public exponent mod `n`, return `k` big-endian bytes.  The
caller supplies the random padding bytes (`rand`); the hash function and its
length parametrize OAEP. -/
def rsaEncrypt (hash : List Nat → List Nat) (hLen : Nat) (key : PublicKey)
    (rand msg : List Nat) (mode : Padding) : Except Err (List Nat) :=
  let k := byteLen key.n
  let padded := match mode with
    | .pkcs1 => pkcs1Pad k rand msg
    | .oaep => oaepPad hash hLen k rand msg
  padded.map (fun em => I2OSP k (powMod key.n (OS2IP em) key.e))

/-- Modelled from the spec: `RSA_private_decrypt` (spec section 4.5):
require ciphertext length `k` and value `< n` (else `InvalidCiphertext`),
apply the (CRT-accelerated) private-key exponentiation, unpad according to
the padding mode. -/
def rsaDecrypt (hash : List Nat → List Nat) (hLen : Nat) (key : PrivateKey)
    (ct : List Nat) (mode : Padding) : Except Err (List Nat) :=
  let k := byteLen key.n
  if ct.length ≠ k then .error .InvalidCiphertext
  else if key.n ≤ OS2IP ct then .error .InvalidCiphertext
  else
    let em := I2OSP k (rsaPrivGo key (OS2IP ct))
    match mode with
    | .pkcs1 => (pkcs1UnpadT em).1
    | .oaep => (oaepUnpadT hash hLen em).1

/-- A digest algorithm: its DigestInfo algorithm-identifier bytes and its
digest length (spec section 4.4: "fixed DigestInfo structure (algorithm
identifier + hash)").  Concrete algorithms are external collaborators the
shim identifies by the integer `type`. -/
structure DigestAlg where
  algId : List Nat
  hLen : Nat
deriving DecidableEq

/-- Modelled from the spec: `RSA_sign` (spec section 4.5): PKCS#1 v1.5
signature encoding `00 01 FF…FF 00 ‖ T` of the DigestInfo `T = algId ‖ H`,
then private-key exponentiation.  Fails with `InvalidInput` when the
caller-declared hash length does not match the algorithm's expected
length. -/
def rsaSignCore (alg : DigestAlg) (h : List Nat) (key : PrivateKey) :
    Except Err (List Nat) :=
  if h.length ≠ alg.hLen then .error .InvalidInput
  else
    let k := byteLen key.n
    let t := alg.algId ++ h
    if k < t.length + 11 then .error .MessageTooLong
    else
      let em := [0, 1] ++ (List.replicate (k - t.length - 3) 255 ++ (0 :: t))
      .ok (I2OSP k (rsaPrivGo key (OS2IP em)))

/-- Modelled from the spec: `RSA_verify` (spec section 4.5): compute
`sᵉ mod n`, re-derive the expected encoding, compare in constant time.
The comparison verdict is the boolean result; errors arise only from
malformed input sizes. -/
def rsaVerifyCore (alg : DigestAlg) (h sig : List Nat) (key : PublicKey) :
    Except Err Bool :=
  if h.length ≠ alg.hLen then .error .InvalidInput
  else
    let k := byteLen key.n
    if sig.length ≠ k then .error .InvalidInput
    else
      let t := alg.algId ++ h
      if k < t.length + 11 then .error .MessageTooLong
      else
        let em := [0, 1] ++ (List.replicate (k - t.length - 3) 255 ++ (0 :: t))
        .ok ((eqScan (I2OSP k (powMod key.n (OS2IP sig) key.e)) em).1)

/-! ### Key-pair generation (spec section 4.3) -/

/-- Decompose `n` as `2 ^ s · t` with `t` odd (fuel-indexed). -/
def oddFactorAux : Nat → Nat → Nat × Nat
  | 0, n => (0, n)
  | fuel+1, n =>
    if 0 < n ∧ n % 2 = 0 then
      let r := oddFactorAux fuel (n / 2)
      (r.1 + 1, r.2)
    else (0, n)

/-- Repeated squaring stage of a Miller–Rabin round. -/
def mrSquares (n : Nat) : Nat → Nat → Bool
  | _, 0 => false
  | x, s+1 =>
    let x2 := x * x % n
    if x2 = n - 1 then true else mrSquares n x2 s

/-- One Miller–Rabin round with base `a`. -/
def mrWitnessOk (n a : Nat) : Bool :=
  let st := oddFactorAux (n - 1) (n - 1)
  let x := powMod n a st.2
  if x = 1 ∨ x = n - 1 then true else mrSquares n x (st.1 - 1)

/-- Modelled from the spec: the Miller–Rabin probabilistic primality test
(spec section 4.3); the list of bases stands for the configurable rounds
drawn from the external entropy source. -/
def millerRabin (n : Nat) (bases : List Nat) : Bool :=
  if n < 2 then false
  else if n = 2 then true
  else if n % 2 = 0 then false
  else bases.all (fun a => mrWitnessOk n a)

/-- Candidate filter used by generation (spec section 4.3): odd, of exactly
`h` bits with the top two bits set (so that the product of two accepted
candidates has exactly `2·h` bits), probably prime, and with the public
exponent coprime to `c − 1`. -/
def suitableCand (h e : Nat) (bases : List Nat) (c : Nat) : Bool :=
  decide (2 ^ (h - 1) + 2 ^ (h - 2) ≤ c) && decide (c < 2 ^ h) &&
    (c % 2 == 1) && millerRabin c bases && (Nat.gcd e (c - 1) == 1)

/-- Scan the candidate stream for the first suitable prime and then for a
second, distinct one (spec section 4.3: "until two distinct primes p ≠ q
are found"). -/
def pickPrimes (ok : Nat → Bool) : List Nat → Option (Nat × Nat)
  | [] => none
  | c :: rest =>
    if ok c then
      match rest.find? (fun x => ok x && x != c) with
      | some q => some (c, q)
      | none => none
    else pickPrimes ok rest

/-- Fuel-indexed extended Euclid, tracking the Bézout coefficient of the
first argument. -/
def egcdAux : Nat → Nat → Nat → Int → Int → Nat × Int
  | 0, r0, _, s0, _ => (r0, s0)
  | fuel+1, r0, r1, s0, s1 =>
    if r1 = 0 then (r0, s0)
    else egcdAux fuel r1 (r0 % r1) s1 (s0 - ((r0 / r1 : Nat) : Int) * s1)

/-- Modelled from the spec: modular inverse via the extended Euclidean
algorithm (spec section 4.1). -/
def modInv (a n : Nat) : Option Nat :=
  let r := egcdAux n a n 1 0
  if r.1 = 1 then some ((r.2 % (n : Int)).toNat) else none

theorem egcdAux_gcd :
    ∀ fuel r0 r1 s0 s1, r1 ≤ fuel →
      (egcdAux fuel r0 r1 s0 s1).1 = Nat.gcd r0 r1 := by
  intro fuel
  induction fuel with
  | zero =>
    intro r0 r1 s0 s1 h
    have : r1 = 0 := Nat.le_zero.mp h
    subst this
    simp [egcdAux]
  | succ f ih =>
    intro r0 r1 s0 s1 h
    by_cases h0 : r1 = 0
    · subst h0; simp [egcdAux]
    · have hpos : 0 < r1 := Nat.pos_of_ne_zero h0
      have hlt : r0 % r1 < r1 := Nat.mod_lt _ hpos
      have hf : r0 % r1 ≤ f := by omega
      simp only [egcdAux, h0, if_false]
      rw [ih _ _ _ _ hf]
      rw [Nat.gcd_comm r0 r1, Nat.gcd_rec r1 r0, Nat.gcd_comm (r0 % r1) r1]

theorem modInv_isSome {a n : Nat} (h : Nat.gcd a n = 1) :
    ∃ d, modInv a n = some d := by
  have hg : (egcdAux n a n 1 0).1 = 1 := by
    rw [egcdAux_gcd n a n 1 0 (Nat.le_refl n)]
    exact h
  refine ⟨((egcdAux n a n 1 0).2 % (n : Int)).toNat, ?_⟩
  simp [modInv, hg]

/-- Modelled from the spec: `RSA_generate_key_ex` (spec section 4.3):
reject a requested size below 512 bits with `KeyTooSmall`; scan the
candidate stream (the output of the external entropy source — its length is
the bounded retry budget) for two distinct suitable primes, failing with
`GenerationFailed` when the budget is exhausted; derive `n`,
`λ = lcm(p−1, q−1)`, `d = e⁻¹ mod λ` and the CRT parameters. -/
def generateKey (bits e : Nat) (bases cands : List Nat) :
    Except Err PrivateKey :=
  if bits < 512 then .error .KeyTooSmall
  else
    match pickPrimes (suitableCand (bits / 2) e bases) cands with
    | none => .error .GenerationFailed
    | some pq =>
      match modInv e (Nat.lcm (pq.1 - 1) (pq.2 - 1)) with
      | none => .error .InvalidKeyParameters
      | some d => .ok ⟨pq.1 * pq.2, d,
          some ⟨pq.1, pq.2, d % (pq.1 - 1), d % (pq.2 - 1),
            (modInv pq.2 pq.1).getD 0⟩⟩

theorem pickPrimes_some {ok : Nat → Bool} {cands : List Nat} {p q : Nat}
    (h : pickPrimes ok cands = some (p, q)) :
    ok p = true ∧ ok q = true ∧ q ≠ p := by
  induction cands with
  | nil => simp [pickPrimes] at h
  | cons c rest ih =>
    simp only [pickPrimes] at h
    by_cases hc : ok c
    · rw [if_pos hc] at h
      cases hfind : rest.find? (fun x => ok x && x != c) with
      | none => rw [hfind] at h; exact absurd h (by simp)
      | some q' =>
        rw [hfind] at h
        have hpq : c = p ∧ q' = q := by
          simpa [Prod.ext_iff] using h
        obtain ⟨hcp, hq'q⟩ := hpq
        have hfound := List.find?_some hfind
        simp only [Bool.and_eq_true, bne_iff_ne, ne_eq] at hfound
        subst hcp
        subst hq'q
        exact ⟨hc, hfound.1, hfound.2⟩
    · rw [if_neg hc] at h
      exact ih h

theorem suitableCand_props {h e c : Nat} {bases : List Nat}
    (hs : suitableCand h e bases c = true) :
    2 ^ (h - 1) + 2 ^ (h - 2) ≤ c ∧ c < 2 ^ h ∧ Nat.gcd e (c - 1) = 1 := by
  simp only [suitableCand, Bool.and_eq_true, decide_eq_true_eq,
    beq_iff_eq] at hs
  exact ⟨hs.1.1.1.1, hs.1.1.1.2, hs.2⟩

theorem generateKey_ok {bits e p q : Nat} {bases cands : List Nat}
    (hbits : 512 ≤ bits) (heven : bits % 2 = 0)
    (hpick : pickPrimes (suitableCand (bits / 2) e bases) cands =
      some (p, q)) :
    ∃ key, generateKey bits e bases cands = .ok key ∧
      2 ^ (bits - 1) ≤ key.n ∧ key.n < 2 ^ bits := by
  obtain ⟨hp, hq, hqp⟩ := pickPrimes_some hpick
  obtain ⟨hp1, hp2, hp3⟩ := suitableCand_props hp
  obtain ⟨hq1, hq2, hq3⟩ := suitableCand_props hq
  have hco : Nat.gcd e (Nat.lcm (p - 1) (q - 1)) = 1 := by
    have hcop : Nat.Coprime e ((p - 1) * (q - 1)) :=
      Nat.Coprime.mul_right hp3 hq3
    exact Nat.Coprime.coprime_dvd_right (Nat.lcm_dvd_mul _ _) hcop
  obtain ⟨d, hd⟩ := modInv_isSome hco
  have hb512 : ¬ bits < 512 := by omega
  set h := bits / 2 with hhdef
  have hh2 : 2 ≤ h := by omega
  have hhb : h + h = bits := by omega
  refine ⟨⟨p * q, d, some ⟨p, q, d % (p - 1), d % (q - 1),
    (modInv q p).getD 0⟩⟩, ?_, ?_, ?_⟩
  · simp [generateKey, hb512, hpick, hd]
  · show 2 ^ (bits - 1) ≤ p * q
    have hp3' : 3 * 2 ^ (h - 2) ≤ p := by
      have hsplit : 2 ^ (h - 1) = 2 ^ (h - 2) * 2 := by
        have : h - 1 = (h - 2) + 1 := by omega
        rw [this, pow_succ]
      rw [hsplit] at hp1
      omega
    have hq3' : 3 * 2 ^ (h - 2) ≤ q := by
      have hsplit : 2 ^ (h - 1) = 2 ^ (h - 2) * 2 := by
        have : h - 1 = (h - 2) + 1 := by omega
        rw [this, pow_succ]
      rw [hsplit] at hq1
      omega
    have hmul : (3 * 2 ^ (h - 2)) * (3 * 2 ^ (h - 2)) ≤ p * q :=
      Nat.mul_le_mul hp3' hq3'
    have hlhs : 2 ^ (bits - 1) ≤ (3 * 2 ^ (h - 2)) * (3 * 2 ^ (h - 2)) := by
      have he1 : bits - 1 = (h - 2) + (h - 2) + 3 := by omega
      have he2 : (3 * 2 ^ (h - 2)) * (3 * 2 ^ (h - 2)) =
          9 * 2 ^ ((h - 2) + (h - 2)) := by rw [pow_add]; ring
      rw [he1, he2, pow_add]
      have h8 : (2 : Nat) ^ 3 = 8 := by norm_num
      rw [h8]
      omega
    exact le_trans hlhs hmul
  · show p * q < 2 ^ bits
    have := Nat.mul_lt_mul_of_lt_of_le hp2 (Nat.le_of_lt hq2)
      (by positivity)
    calc p * q < 2 ^ h * 2 ^ h := by
          exact Nat.mul_lt_mul_of_lt_of_le hp2 (Nat.le_of_lt hq2)
            (by positivity)
      _ = 2 ^ bits := by rw [← pow_add, hhb]

/-! ### The shim `pal_rsa.cpp`, embedded from the source

Buffers are byte lists; a nullable pointer is an `Option`; an out-parameter
becomes a component of the result.  The OpenSSL primitives the shim forwards
to are the models above, except where a claim is about the shim's behaviour
for an arbitrary callee, in which case the callee is a parameter. -/

/-- Shim function `DecodeRsaPublicKey`: guards `!buf || !len`, then delegates to the
external `d2i_RSAPublicKey` (a parameter), which parses `len` bytes at
`buf`. -/
def DecodeRsaPublicKey (d2i : List Nat → Option PublicKey)
    (buf : Option (List Nat)) (len : Int) : Option PublicKey :=
  match buf with
  | none => none
  | some b => if len = 0 then none else d2i (b.take len.toNat)

/-- Shim function `RsaPublicEncrypt`: selects `RSA_PKCS1_OAEP_PADDING` when the int flag
`useOaepPadding` is truthy (nonzero) and `RSA_PKCS1_PADDING` otherwise, and
forwards to (the model of) `RSA_public_encrypt`. -/
def RsaPublicEncrypt (hash : List Nat → List Nat) (hLen : Nat)
    (from_ : List Nat) (rsa : PublicKey) (useOaepPadding : Int)
    (rand : List Nat) : Except Err (List Nat) :=
  rsaEncrypt hash hLen rsa rand from_
    (if useOaepPadding ≠ 0 then .oaep else .pkcs1)

/-- Shim function `RsaPrivateDecrypt`: same flag mapping, forwarding to (the model of)
`RSA_private_decrypt`. -/
def RsaPrivateDecrypt (hash : List Nat → List Nat) (hLen : Nat)
    (from_ : List Nat) (rsa : PrivateKey) (useOaepPadding : Int) :
    Except Err (List Nat) :=
  rsaDecrypt hash hLen rsa from_
    (if useOaepPadding ≠ 0 then .oaep else .pkcs1)

/-- Shim function `RsaSize`: the modulus byte length (`RSA_size`). -/
def RsaSize (rsa : PublicKey) : Nat := byteLen rsa.n

/-- Shim function `RsaGenerateKeyEx`: direct forward to (the model of)
`RSA_generate_key_ex`. -/
def RsaGenerateKeyEx (bits e : Nat) (bases cands : List Nat) :
    Except Err PrivateKey :=
  generateKey bits e bases cands

/-- Shim function `RsaSign`: returns `0` when the `siglen` out-pointer is null, without
calling the underlying `RSA_sign` (a parameter) and without writing through
any out-pointer; otherwise forwards and writes the signature length.  The
result is (return code, bytes written to `sigret`, value written through
`siglen`). -/
def RsaSign
    (sign_fn : DigestAlg → List Nat → PrivateKey → Int × List Nat × Nat)
    (type : DigestAlg) (m : List Nat) (rsa : PrivateKey)
    (siglenPresent : Bool) : Int × Option (List Nat) × Option Int :=
  if ¬ siglenPresent then (0, none, none)
  else
    let r := sign_fn type m rsa
    (r.1, some r.2.1, some (r.2.2 : Int))

/-- Shim function `RsaVerify`: direct forward to (the model of) `RSA_verify`. -/
def RsaVerify (type : DigestAlg) (m sigbuf : List Nat) (rsa : PublicKey) :
    Except Err Bool :=
  rsaVerifyCore type m sigbuf rsa

/-! ### Round-trip lemmas for the full encrypt/decrypt pipeline -/

theorem OS2IP_zero_cons (t : List Nat) : OS2IP (0 :: t) = OS2IP t := by
  rw [OS2IP_cons]
  simp

theorem rsaDecrypt_em {p q : Nat} {pub : PublicKey} {priv : PrivateKey}
    (hash : List Nat → List Nat) (hLen : Nat) (mode : Padding)
    (hpubn : pub.n = p * q) (hprivn : priv.n = p * q)
    (hp : p.Prime) (hq : q.Prime) (hpq : p ≠ q)
    (hed : pub.e * priv.d ≡ 1 [MOD Nat.lcm (p - 1) (q - 1)])
    (he : 0 < pub.e) (hd : 0 < priv.d) (hcrt : CrtConsistent priv)
    {em : List Nat} (hlen : em.length = byteLen pub.n)
    (hbytes : ∀ b ∈ em, b < 256) (hhead : ∃ t, em = 0 :: t) :
    rsaDecrypt hash hLen priv
        (I2OSP (byteLen pub.n) (powMod pub.n (OS2IP em) pub.e)) mode =
      (match mode with
        | .pkcs1 => (pkcs1UnpadT em).1
        | .oaep => (oaepUnpadT hash hLen em).1) := by
  have hn : priv.n = pub.n := by rw [hpubn, hprivn]
  have hnpos : 0 < pub.n := by
    rw [hpubn]; exact Nat.mul_pos hp.pos hq.pos
  set k := byteLen pub.n with hk
  have hk' : byteLen priv.n = k := by rw [hn]
  set c := powMod pub.n (OS2IP em) pub.e with hc
  have hclt : c < pub.n := by
    rw [hc, powMod_eq]; exact Nat.mod_lt _ hnpos
  have hct_len : (I2OSP k c).length = k := length_I2OSP k c
  have hos : OS2IP (I2OSP k c) = c :=
    OS2IP_I2OSP_of_lt (lt_trans hclt (byteLen_lt pub.n))
  have hm_lt : OS2IP em < pub.n := by
    obtain ⟨t, ht⟩ := hhead
    have htlen : t.length = k - 1 := by
      have := hlen
      rw [ht] at this
      simp at this
      omega
    have htb : ∀ b ∈ t, b < 256 := by
      intro b hb
      exact hbytes b (by rw [ht]; exact List.mem_cons_of_mem _ hb)
    calc OS2IP em = OS2IP t := by rw [ht, OS2IP_zero_cons]
      _ < 256 ^ t.length := OS2IP_lt t htb
      _ = 256 ^ (k - 1) := by rw [htlen]
      _ ≤ pub.n := byteLen_le (by omega)
  have hgo : rsaPrivGo priv c = OS2IP em := by
    rw [rsaPrivGo_eq priv hcrt, hn, hpubn]
    rw [hc, hpubn]
    exact rsa_core_powMod hp hq hpq (by rw [← hpubn, ← hprivn] at *; exact hed)
      he hd (by rw [← hpubn]; exact hm_lt)
  have hem_rec : I2OSP k (OS2IP em) = em := by
    have := I2OSP_OS2IP em hbytes
    rwa [hlen] at this
  simp only [rsaDecrypt, hk', hct_len, ne_eq, not_true_eq_false, if_false,
    hos]
  rw [if_neg (by rw [hn]; omega)]
  rw [hgo, hem_rec]

theorem oaepPad_props {hash : List Nat → List Nat} {hLen k : Nat}
    {seed msg : List Nat}
    (hH : ∀ x, (hash x).length = hLen) (hpos : 0 < hLen)
    (hB : ∀ x, ∀ b ∈ hash x, b < 256)
    (hseed : seed.length = hLen) (hseedB : ∀ b ∈ seed, b < 256)
    (hmsgB : ∀ b ∈ msg, b < 256)
    (hlen : msg.length + 2 * hLen + 2 ≤ k) :
    ∃ em, oaepPad hash hLen k seed msg = .ok em ∧ em.length = k ∧
      (∀ b ∈ em, b < 256) ∧ (∃ t, em = 0 :: t) := by
  have h1 : ¬ k < msg.length + 2 * hLen + 2 := by omega
  set psLen := k - msg.length - 2 * hLen - 2 with hpsdef
  set db := hash [] ++ (List.replicate psLen 0 ++ (1 :: msg)) with hdbdef
  set mdb := xorB db (MGF1 hash hLen seed (k - hLen - 1)) with hmdbdef
  set msd := xorB seed (MGF1 hash hLen mdb hLen) with hmsddef
  have hdbB : ∀ b ∈ db, b < 256 := by
    intro b hb
    rw [hdbdef] at hb
    simp only [List.mem_append, List.mem_replicate, List.mem_cons] at hb
    rcases hb with hb | hb | hb | hb
    · exact hB [] b hb
    · omega
    · omega
    · exact hmsgB b hb
  have hmdbB : ∀ b ∈ mdb, b < 256 :=
    xorB_lt _ _ hdbB (MGF1_lt hB _ _)
  have hmsdB : ∀ b ∈ msd, b < 256 :=
    xorB_lt _ _ hseedB (MGF1_lt hB _ _)
  have hdblen : db.length = k - hLen - 1 := by
    rw [hdbdef]
    simp [hH, List.length_replicate]
    omega
  have hmdblen : mdb.length = k - hLen - 1 := by
    rw [hmdbdef, length_xorB, hdblen, length_MGF1 hH hpos, Nat.min_self]
  have hmsdlen : msd.length = hLen := by
    rw [hmsddef, length_xorB, hseed, length_MGF1 hH hpos, Nat.min_self]
  refine ⟨0 :: (msd ++ mdb), ?_, ?_, ?_, ⟨_, rfl⟩⟩
  · unfold oaepPad
    rw [if_neg h1, if_pos ⟨hseed, hseedB⟩]
  · simp [hmsdlen, hmdblen]
    omega
  · intro b hb
    simp only [List.mem_cons, List.mem_append] at hb
    rcases hb with hb | hb | hb
    · omega
    · exact hmsdB b hb
    · exact hmdbB b hb

/-- Validity of the caller-supplied randomness and message length for a
given padding mode (spec section 4.4): PKCS#1 v1.5 needs `k − L − 3` nonzero
random bytes and `L ≤ k − 11`; OAEP needs an `hLen`-byte random seed, a
well-behaved hash, and `L ≤ k − 2·hLen − 2`. -/
def EncOk (hash : List Nat → List Nat) (hLen k : Nat)
    (rand msg : List Nat) : Padding → Prop
  | .pkcs1 => msg.length + 11 ≤ k ∧ rand.length = k - msg.length - 3 ∧
      ∀ b ∈ rand, 0 < b ∧ b < 256
  | .oaep => msg.length + 2 * hLen + 2 ≤ k ∧ rand.length = hLen ∧
      (∀ b ∈ rand, b < 256) ∧ 0 < hLen ∧ (∀ x, (hash x).length = hLen) ∧
      ∀ x, ∀ b ∈ hash x, b < 256

/-- C1: for every key pair satisfying the generation invariants (distinct
primes `p, q`, `e·d ≡ 1 mod λ(n)`, consistent CRT parameters) and every
plaintext of valid length for the chosen padding mode, decryption inverts
encryption. -/
theorem encrypt_decrypt_roundtrip {p q : Nat} {pub : PublicKey}
    {priv : PrivateKey} (hash : List Nat → List Nat) (hLen : Nat)
    (mode : Padding) (rand msg : List Nat)
    (hpubn : pub.n = p * q) (hprivn : priv.n = p * q)
    (hp : p.Prime) (hq : q.Prime) (hpq : p ≠ q)
    (hed : pub.e * priv.d ≡ 1 [MOD Nat.lcm (p - 1) (q - 1)])
    (he : 0 < pub.e) (hd : 0 < priv.d) (hcrt : CrtConsistent priv)
    (hmsg : ∀ b ∈ msg, b < 256)
    (hok : EncOk hash hLen (byteLen pub.n) rand msg mode) :
    ∃ ct, rsaEncrypt hash hLen pub rand msg mode = .ok ct ∧
      rsaDecrypt hash hLen priv ct mode = .ok msg := by
  cases mode with
  | pkcs1 =>
    obtain ⟨hl, hrl, hrb⟩ := hok
    set k := byteLen pub.n with hk
    have hpad := pkcs1Pad_ok hl hrl hrb
    set em := [0, 2] ++ rand ++ [0] ++ msg with hemdef
    have hemlen : em.length = k := by
      rw [hemdef]
      simp
      omega
    have hembytes : ∀ b ∈ em, b < 256 := by
      intro b hb
      rw [hemdef] at hb
      simp only [List.append_assoc, List.cons_append, List.nil_append,
        List.mem_cons, List.mem_append] at hb
      rcases hb with hb | hb | hb | hb | hb
      · omega
      · omega
      · exact (hrb b hb).2
      · omega
      · exact hmsg b hb
    have hemhead : ∃ t, em = 0 :: t :=
      ⟨2 :: (rand ++ 0 :: msg), by rw [hemdef]; simp⟩
    have henc : rsaEncrypt hash hLen pub rand msg .pkcs1 =
        .ok (I2OSP k (powMod pub.n (OS2IP em) pub.e)) := by
      simp [rsaEncrypt, hpad, Except.map]
    refine ⟨_, henc, ?_⟩
    rw [rsaDecrypt_em hash hLen .pkcs1 hpubn hprivn hp hq hpq hed he hd
      hcrt hemlen hembytes hemhead]
    exact pkcs1UnpadT_pad (by omega)
      (fun b hb => by have := (hrb b hb).1; omega)
  | oaep =>
    obtain ⟨hl, hrl, hrb, hpos, hH, hB⟩ := hok
    obtain ⟨em, hpad, hemlen, hembytes, hemhead⟩ :=
      oaepPad_props hH hpos hB hrl hrb hmsg hl
    have henc : rsaEncrypt hash hLen pub rand msg .oaep =
        .ok (I2OSP (byteLen pub.n) (powMod pub.n (OS2IP em) pub.e)) := by
      simp [rsaEncrypt, hpad, Except.map]
    refine ⟨_, henc, ?_⟩
    rw [rsaDecrypt_em hash hLen .oaep hpubn hprivn hp hq hpq hed he hd
      hcrt hemlen hembytes hemhead]
    exact oaep_roundtrip hH hpos hl hpad

/-! ### A Lucas-style primality certificate checked by `powMod` -/

theorem powMod_one_iff {p a k : Nat} (hp2 : 2 ≤ p) :
    (a : ZMod p) ^ k = 1 ↔ powMod p a k = 1 := by
  rw [powMod_eq]
  have h1p : (1 : Nat) % p = 1 := Nat.mod_eq_of_lt (by omega)
  have hcast : ((a : ZMod p)) ^ k = (((a ^ k : ℕ) : ZMod p)) := by
    push_cast
    rfl
  have hone : (1 : ZMod p) = ((1 : ℕ) : ZMod p) := by push_cast; rfl
  rw [hcast, hone, ZMod.natCast_eq_natCast_iff]
  unfold Nat.ModEq
  rw [h1p]

theorem prime_of_lucas_pow {p c m a : Nat} (hp2 : 2 ≤ p) (hc : c.Prime)
    (hc2 : c ≠ 2) (hfac : p - 1 = 2 ^ m * c)
    (h1 : powMod p a (p - 1) = 1)
    (h2 : powMod p a ((p - 1) / 2) ≠ 1)
    (h3 : powMod p a ((p - 1) / c) ≠ 1) : p.Prime := by
  apply lucas_primality p (a : ZMod p)
  · exact (powMod_one_iff hp2).mpr h1
  · intro r hr hrdvd
    rw [hfac] at hrdvd
    have hr2c : r = 2 ∨ r = c := by
      rcases (Nat.Prime.dvd_mul hr).mp hrdvd with hdvd | hdvd
      · left
        exact (Nat.prime_dvd_prime_iff_eq hr Nat.prime_two).mp
          (hr.dvd_of_dvd_pow hdvd)
      · right
        exact (Nat.prime_dvd_prime_iff_eq hr hc).mp hdvd
    rcases hr2c with rfl | rfl
    · exact fun hcontra => h2 ((powMod_one_iff hp2).mp hcontra)
    · exact fun hcontra => h3 ((powMod_one_iff hp2).mp hcontra)

set_option maxRecDepth 400000 in
/-- The number `1284732092417 = 2393·2²⁹ + 1` is prime (Lucas certificate, base 3). -/
theorem prime_1284732092417 : Nat.Prime 1284732092417 :=
  prime_of_lucas_pow (a := 3) (by norm_num) (by norm_num) (by norm_num)
    (by norm_num : (1284732092417 : Nat) - 1 = 2 ^ 29 * 2393)
    (by decide) (by decide) (by decide)

set_option maxRecDepth 400000 in
/-- The number `1384590082049 = 2579·2²⁹ + 1` is prime (Lucas certificate, base 3). -/
theorem prime_1384590082049 : Nat.Prime 1384590082049 :=
  prime_of_lucas_pow (a := 3) (by norm_num) (by norm_num) (by norm_num)
    (by norm_num : (1384590082049 : Nat) - 1 = 2 ^ 29 * 2579)
    (by decide) (by decide) (by decide)

set_option maxRecDepth 400000 in
/-- Witness for C1: a concrete key pair (`n` of 11 bytes) and plaintext
round-trips under PKCS#1 v1.5. -/
theorem encrypt_decrypt_roundtrip_witness :
    ∃ ct, rsaEncrypt (fun _ => [0]) 1
        ⟨1778827313250637480722433, 65537⟩
        [1, 1, 1, 1, 1, 1, 1, 1] [] .pkcs1 = .ok ct ∧
      rsaDecrypt (fun _ => [0]) 1
        ⟨1778827313250637480722433, 918056238776321, none⟩ ct .pkcs1 =
        .ok [] :=
  @encrypt_decrypt_roundtrip 1284732092417 1384590082049
    ⟨1778827313250637480722433, 65537⟩
    ⟨1778827313250637480722433, 918056238776321, none⟩
    (fun _ => [0]) 1 .pkcs1 [1, 1, 1, 1, 1, 1, 1, 1] []
    rfl rfl prime_1284732092417 prime_1384590082049
    (by norm_num) (by decide) (by norm_num) (by norm_num)
    trivial (by simp) (by simp only [EncOk]; decide)

/-! ### Signing and verification round trip -/

theorem OS2IP_head_zero_lt {em : List Nat} {n : Nat}
    (hlen : em.length = byteLen n) (hbytes : ∀ b ∈ em, b < 256)
    (hhead : ∃ t, em = 0 :: t) (hn : 1 ≤ n) : OS2IP em < n := by
  obtain ⟨t, ht⟩ := hhead
  have htlen : t.length = byteLen n - 1 := by
    rw [ht] at hlen
    simp at hlen
    omega
  have htb : ∀ b ∈ t, b < 256 := fun b hb =>
    hbytes b (by rw [ht]; exact List.mem_cons_of_mem _ hb)
  calc OS2IP em = OS2IP t := by rw [ht, OS2IP_zero_cons]
    _ < 256 ^ t.length := OS2IP_lt t htb
    _ = 256 ^ (byteLen n - 1) := by rw [htlen]
    _ ≤ n := byteLen_le hn

theorem rsaSignCore_ok {alg : DigestAlg} {h : List Nat} {priv : PrivateKey}
    (hhlen : h.length = alg.hLen)
    (hfit : (alg.algId ++ h).length + 11 ≤ byteLen priv.n) :
    rsaSignCore alg h priv = .ok (I2OSP (byteLen priv.n)
      (rsaPrivGo priv (OS2IP ([0, 1] ++
        (List.replicate (byteLen priv.n - (alg.algId ++ h).length - 3) 255 ++
          (0 :: (alg.algId ++ h))))))) := by
  simp only [rsaSignCore]
  split_ifs with h1 h2
  · exact absurd hhlen h1
  · omega
  · rfl

theorem rsaVerifyCore_ok {alg : DigestAlg} {h sig : List Nat}
    {pub : PublicKey} (hhlen : h.length = alg.hLen)
    (hsiglen : sig.length = byteLen pub.n)
    (hfit : (alg.algId ++ h).length + 11 ≤ byteLen pub.n) :
    rsaVerifyCore alg h sig pub = .ok ((eqScan
      (I2OSP (byteLen pub.n) (powMod pub.n (OS2IP sig) pub.e))
      ([0, 1] ++
        (List.replicate (byteLen pub.n - (alg.algId ++ h).length - 3) 255 ++
          (0 :: (alg.algId ++ h))))).1) := by
  simp only [rsaVerifyCore]
  split_ifs with h1 h2 h3
  · exact absurd hhlen h1
  · exact absurd hsiglen h2
  · omega
  · rfl

/-- C2: for every key pair satisfying the generation invariants, every
digest algorithm that fits into the modulus, and every hash of the expected
length, verification accepts the signature produced by signing. -/
theorem sign_verify_roundtrip {p q : Nat} {pub : PublicKey}
    {priv : PrivateKey} (alg : DigestAlg) (h : List Nat)
    (hpubn : pub.n = p * q) (hprivn : priv.n = p * q)
    (hp : p.Prime) (hq : q.Prime) (hpq : p ≠ q)
    (hed : pub.e * priv.d ≡ 1 [MOD Nat.lcm (p - 1) (q - 1)])
    (he : 0 < pub.e) (hd : 0 < priv.d) (hcrt : CrtConsistent priv)
    (hhlen : h.length = alg.hLen)
    (halgB : ∀ b ∈ alg.algId, b < 256) (hhB : ∀ b ∈ h, b < 256)
    (hfit : alg.algId.length + alg.hLen + 11 ≤ byteLen pub.n) :
    ∃ sig, rsaSignCore alg h priv = .ok sig ∧
      rsaVerifyCore alg h sig pub = .ok true := by
  have hn : priv.n = pub.n := by rw [hpubn, hprivn]
  have hnpos : 0 < pub.n := by
    rw [hpubn]; exact Nat.mul_pos hp.pos hq.pos
  have htlen : (alg.algId ++ h).length = alg.algId.length + alg.hLen := by
    simp [hhlen]
  have hsig := @rsaSignCore_ok alg h priv hhlen
    (by rw [hn]; omega)
  rw [hn] at hsig
  set em := [0, 1] ++
    (List.replicate (byteLen pub.n - (alg.algId ++ h).length - 3) 255 ++
      (0 :: (alg.algId ++ h))) with hemdef
  have hemlen : em.length = byteLen pub.n := by
    rw [hemdef]
    simp
    omega
  have hembytes : ∀ b ∈ em, b < 256 := by
    intro b hb
    rw [hemdef] at hb
    simp only [List.cons_append, List.nil_append, List.mem_cons,
      List.mem_append, List.mem_replicate] at hb
    rcases hb with hb | hb | hb | hb | hb
    · omega
    · omega
    · omega
    · omega
    · rcases hb with hb | hb
      · exact halgB b hb
      · exact hhB b hb
  have hemhead : ∃ u, em = 0 :: u :=
    ⟨1 :: (List.replicate (byteLen pub.n - (alg.algId ++ h).length - 3)
        255 ++ 0 :: (alg.algId ++ h)),
      by rw [hemdef]; simp⟩
  have hm_lt : OS2IP em < pub.n :=
    OS2IP_head_zero_lt hemlen hembytes hemhead (by omega)
  rw [rsaPrivGo_eq priv hcrt, hn] at hsig
  refine ⟨_, hsig, ?_⟩
  set v := powMod pub.n (OS2IP em) priv.d with hv
  have hvlt : v < pub.n := by
    rw [hv, powMod_eq]
    exact Nat.mod_lt _ hnpos
  have hsiglen : (I2OSP (byteLen pub.n) v).length = byteLen pub.n :=
    length_I2OSP _ v
  have hos : OS2IP (I2OSP (byteLen pub.n) v) = v :=
    OS2IP_I2OSP_of_lt (lt_trans hvlt (byteLen_lt pub.n))
  have hrec : powMod pub.n v pub.e = OS2IP em := by
    rw [hv, hpubn]
    exact rsa_core_powMod hp hq hpq
      (by rw [Nat.mul_comm]; exact hed) hd he
      (by rw [← hpubn]; exact hm_lt)
  have hem_rec : I2OSP (byteLen pub.n) (OS2IP em) = em := by
    have := I2OSP_OS2IP em hembytes
    rwa [hemlen] at this
  rw [rsaVerifyCore_ok hhlen hsiglen (by omega), ← hemdef, hos, hrec,
    hem_rec, eqScan_self]

set_option maxRecDepth 400000 in
/-- The number `78988958123624300019713 = 2141·2⁶⁵ + 1` is prime (Lucas, base 3). -/
theorem prime_78988958123624300019713 : Nat.Prime 78988958123624300019713 :=
  prime_of_lucas_pow (a := 3) (by norm_num) (by norm_num) (by norm_num)
    (by norm_num : (78988958123624300019713 : Nat) - 1 = 2 ^ 65 * 2141)
    (by decide) (by decide) (by decide)

set_option maxRecDepth 400000 in
/-- The number `86293868776813282459649 = 2339·2⁶⁵ + 1` is prime (Lucas, base 3). -/
theorem prime_86293868776813282459649 : Nat.Prime 86293868776813282459649 :=
  prime_of_lucas_pow (a := 3) (by norm_num) (by norm_num) (by norm_num)
    (by norm_num : (86293868776813282459649 : Nat) - 1 = 2 ^ 65 * 2339)
    (by decide) (by decide) (by decide)

set_option maxRecDepth 400000 in
/-- Witness for C2: a concrete key pair (`n` of 20 bytes), digest algorithm
and hash; verification accepts the produced signature. -/
theorem sign_verify_roundtrip_witness :
    ∃ sig, rsaSignCore ⟨[6, 9, 96], 4⟩ [222, 173, 190, 239]
        ⟨6816262787137234865573860865715706107827060737,
          4617681209969872826466305, none⟩ = .ok sig ∧
      rsaVerifyCore ⟨[6, 9, 96], 4⟩ [222, 173, 190, 239] sig
        ⟨6816262787137234865573860865715706107827060737, 65537⟩ =
        .ok true :=
  @sign_verify_roundtrip 78988958123624300019713 86293868776813282459649
    ⟨6816262787137234865573860865715706107827060737, 65537⟩
    ⟨6816262787137234865573860865715706107827060737,
      4617681209969872826466305, none⟩
    ⟨[6, 9, 96], 4⟩ [222, 173, 190, 239]
    rfl rfl prime_78988958123624300019713 prime_86293868776813282459649
    (by norm_num) (by decide) (by norm_num) (by norm_num) trivial
    (by decide) (by decide) (by decide) (by decide)

/-! ### Remaining claims -/

/-- C5: for every private key carrying CRT parameters satisfying the data
model invariants, and every ciphertext value `c < n`, the Garner CRT
recombination agrees with direct exponentiation `c ^ d mod n`. -/
theorem crt_equals_direct {p q d dP dQ qInv c n : Nat}
    (hn : n = p * q) (hp : p.Prime) (hq : q.Prime) (hpq : p ≠ q)
    (hdP : dP ≡ d [MOD p - 1]) (hdPpos : 0 < dP)
    (hdQ : dQ ≡ d [MOD q - 1]) (hdQpos : 0 < dQ)
    (hqInv : qInv * q ≡ 1 [MOD p]) (hdpos : 0 < d) (hc : c < n) :
    crtCombine p q dP dQ qInv c = powMod n c d := by
  subst hn
  exact crtCombine_eq hp hq hpq hdP hdPpos hdQ hdQpos hqInv hdpos

/-- Witness for C5: `p = 5, q = 11, d = 7`, CRT parameters
`dP = 3, dQ = 7, qInv = 1`, ciphertext `42`. -/
theorem crt_equals_direct_witness :
    crtCombine 5 11 3 7 1 42 = powMod 55 42 7 :=
  crt_equals_direct rfl (by norm_num) (by norm_num) (by norm_num)
    (by decide) (by norm_num) (by decide) (by norm_num) (by decide)
    (by norm_num) (by norm_num)

/-- C4: verification returns a boolean outcome exactly when the input sizes
are well-formed (hash length matching the algorithm, signature length
matching the modulus, encoding fitting the modulus); a signature that does
not verify is the boolean `false`, never an error. -/
theorem verify_ok_iff_sizes (alg : DigestAlg) (h sig : List Nat)
    (pub : PublicKey) :
    (∃ b, rsaVerifyCore alg h sig pub = .ok b) ↔
      (h.length = alg.hLen ∧ sig.length = byteLen pub.n ∧
        (alg.algId ++ h).length + 11 ≤ byteLen pub.n) := by
  constructor
  · rintro ⟨b, hb⟩
    simp only [rsaVerifyCore] at hb
    split_ifs at hb with h1 h2 h3 <;>
      first
        | exact Except.noConfusion hb
        | exact ⟨Decidable.not_not.mp h1, Decidable.not_not.mp h2,
            by omega⟩
  · rintro ⟨h1, h2, h3⟩
    exact ⟨_, rsaVerifyCore_ok h1 h2 h3⟩

/-- Witness for C4: a concrete well-sized input produces a boolean, and a
concrete badly-sized input does not. -/
theorem verify_ok_iff_sizes_witness :
    (∃ b, rsaVerifyCore ⟨[], 0⟩ [] (List.replicate 11 0)
      ⟨256 ^ 10, 3⟩ = .ok b) ∧
      ¬ ∃ b, rsaVerifyCore ⟨[], 0⟩ [1] (List.replicate 11 0)
        ⟨256 ^ 10, 3⟩ = .ok b := by
  constructor
  · exact (verify_ok_iff_sizes ⟨[], 0⟩ [] (List.replicate 11 0)
      ⟨256 ^ 10, 3⟩).mpr (by refine ⟨rfl, ?_, ?_⟩ <;> decide)
  · intro hcontra
    have := (verify_ok_iff_sizes ⟨[], 0⟩ [1] (List.replicate 11 0)
      ⟨256 ^ 10, 3⟩).mp hcontra
    revert this
    decide

/-- C6: under PKCS#1 v1.5 encryption padding, a message of length
`L ≤ k − 11` (with usable randomness) encrypts successfully, and a message
of length `L > k − 11` fails with `MessageTooLong` whatever the supplied
randomness. -/
theorem encrypt_pkcs1_length_boundary (hash : List Nat → List Nat)
    (hLen : Nat) (pub : PublicKey) (rand msg : List Nat) :
    (msg.length + 11 ≤ byteLen pub.n →
      rand.length = byteLen pub.n - msg.length - 3 →
      (∀ b ∈ rand, 0 < b ∧ b < 256) →
      ∃ ct, rsaEncrypt hash hLen pub rand msg .pkcs1 = .ok ct) ∧
    (byteLen pub.n < msg.length + 11 →
      rsaEncrypt hash hLen pub rand msg .pkcs1 = .error .MessageTooLong) := by
  constructor
  · intro h1 h2 h3
    refine ⟨I2OSP (byteLen pub.n)
      (powMod pub.n (OS2IP (0 :: 2 :: (rand ++ 0 :: msg))) pub.e), ?_⟩
    simp [rsaEncrypt, pkcs1Pad_ok h1 h2 h3, Except.map]
  · intro h1
    simp [rsaEncrypt, pkcs1Pad_tooLong rand msg h1, Except.map]

/-- Witness for C6: with `k = 11`, a message of length `k − 11 = 0`
encrypts, and a message of length `k − 10 = 1` fails with
`MessageTooLong`. -/
theorem encrypt_pkcs1_length_boundary_witness :
    (∃ ct, rsaEncrypt (fun _ => [0]) 1 ⟨256 ^ 10, 3⟩
      [1, 1, 1, 1, 1, 1, 1, 1] [] .pkcs1 = .ok ct) ∧
      rsaEncrypt (fun _ => [0]) 1 ⟨256 ^ 10, 3⟩
        [1, 1, 1, 1, 1, 1, 1, 1] [7] .pkcs1 = .error .MessageTooLong :=
  ⟨(encrypt_pkcs1_length_boundary (fun _ => [0]) 1 ⟨256 ^ 10, 3⟩
      [1, 1, 1, 1, 1, 1, 1, 1] []).1 (by decide) (by decide) (by decide),
    (encrypt_pkcs1_length_boundary (fun _ => [0]) 1 ⟨256 ^ 10, 3⟩
      [1, 1, 1, 1, 1, 1, 1, 1] [7]).2 (by decide)⟩

/-- C7: the shim's boolean flag selects the padding scheme: a truthy
(nonzero) `useOaepPadding` selects OAEP, zero selects PKCS#1 v1.5, for both
encryption and decryption. -/
theorem oaep_flag_selects_padding (hash : List Nat → List Nat) (hLen : Nat)
    (buf : List Nat) (pub : PublicKey) (priv : PrivateKey)
    (rand : List Nat) (flag : Int) :
    (flag ≠ 0 →
      RsaPublicEncrypt hash hLen buf pub flag rand =
        rsaEncrypt hash hLen pub rand buf .oaep ∧
      RsaPrivateDecrypt hash hLen buf priv flag =
        rsaDecrypt hash hLen priv buf .oaep) ∧
    (flag = 0 →
      RsaPublicEncrypt hash hLen buf pub flag rand =
        rsaEncrypt hash hLen pub rand buf .pkcs1 ∧
      RsaPrivateDecrypt hash hLen buf priv flag =
        rsaDecrypt hash hLen priv buf .pkcs1) := by
  constructor
  · intro hne
    constructor
    · simp [RsaPublicEncrypt, hne]
    · simp [RsaPrivateDecrypt, hne]
  · intro heq
    subst heq
    constructor
    · simp [RsaPublicEncrypt]
    · simp [RsaPrivateDecrypt]

/-- Witness for C7: concrete flags 1 and 0. -/
theorem oaep_flag_selects_padding_witness :
    (RsaPublicEncrypt (fun _ => [0]) 1 [1, 2] ⟨3233, 17⟩ 1 [1] =
      rsaEncrypt (fun _ => [0]) 1 ⟨3233, 17⟩ [1] [1, 2] .oaep) ∧
    (RsaPublicEncrypt (fun _ => [0]) 1 [1, 2] ⟨3233, 17⟩ 0 [1] =
      rsaEncrypt (fun _ => [0]) 1 ⟨3233, 17⟩ [1] [1, 2] .pkcs1) ∧
    (RsaPrivateDecrypt (fun _ => [0]) 1 [1, 2] ⟨3233, 413, none⟩ 1 =
      rsaDecrypt (fun _ => [0]) 1 ⟨3233, 413, none⟩ [1, 2] .oaep) ∧
    (RsaPrivateDecrypt (fun _ => [0]) 1 [1, 2] ⟨3233, 413, none⟩ 0 =
      rsaDecrypt (fun _ => [0]) 1 ⟨3233, 413, none⟩ [1, 2] .pkcs1) := by
  refine ⟨?_, ?_, ?_, ?_⟩
  · exact ((oaep_flag_selects_padding (fun _ => [0]) 1 [1, 2] ⟨3233, 17⟩
      ⟨3233, 413, none⟩ [1] 1).1 (by norm_num)).1
  · exact ((oaep_flag_selects_padding (fun _ => [0]) 1 [1, 2] ⟨3233, 17⟩
      ⟨3233, 413, none⟩ [1] 0).2 rfl).1
  · exact ((oaep_flag_selects_padding (fun _ => [0]) 1 [1, 2] ⟨3233, 17⟩
      ⟨3233, 413, none⟩ [1] 1).1 (by norm_num)).2
  · exact ((oaep_flag_selects_padding (fun _ => [0]) 1 [1, 2] ⟨3233, 17⟩
      ⟨3233, 413, none⟩ [1] 0).2 rfl).2

/-- C3: a null buffer or a zero length makes `DecodeRsaPublicKey` return
the absent key (`none`), never an error, and without consulting the
underlying parser (the result is the same for every `d2i` callee). -/
theorem decode_null_or_empty_returns_none
    (d2i d2i' : List Nat → Option PublicKey) (buf : Option (List Nat))
    (len : Int) (h : buf = none ∨ len = 0) :
    DecodeRsaPublicKey d2i buf len = none ∧
      DecodeRsaPublicKey d2i buf len = DecodeRsaPublicKey d2i' buf len := by
  rcases h with h | h
  · subst h
    exact ⟨rfl, rfl⟩
  · subst h
    cases buf with
    | none => exact ⟨rfl, rfl⟩
    | some b => exact ⟨by simp [DecodeRsaPublicKey], by
        simp [DecodeRsaPublicKey]⟩

/-- Witness for C3: a zero length with a non-null buffer, under two
different parsers. -/
theorem decode_null_or_empty_returns_none_witness :
    DecodeRsaPublicKey (fun _ => some ⟨5, 3⟩) (some [1, 2, 3]) 0 = none ∧
      DecodeRsaPublicKey (fun _ => some ⟨5, 3⟩) (some [1, 2, 3]) 0 =
        DecodeRsaPublicKey (fun _ => none) (some [1, 2, 3]) 0 :=
  decode_null_or_empty_returns_none (fun _ => some ⟨5, 3⟩) (fun _ => none)
    (some [1, 2, 3]) 0 (Or.inr rfl)

/-- C10: a call to `RsaSign` with a null `siglen` out-pointer returns the
failure code 0, writes through no out-pointer, and never invokes the
underlying signing operation (the result is the same for every callee). -/
theorem rsaSign_null_siglen_out
    (f g : DigestAlg → List Nat → PrivateKey → Int × List Nat × Nat)
    (type : DigestAlg) (m : List Nat) (rsa : PrivateKey) :
    RsaSign f type m rsa false = (0, none, none) ∧
      RsaSign f type m rsa false = RsaSign g type m rsa false := by
  exact ⟨rfl, rfl⟩

/-- C8: key generation rejects every size below 512 bits with
`KeyTooSmall`; for an (even) accepted size, whenever the entropy stream
yields two suitable candidates (the only way generation can return at all),
the generated modulus has exactly the requested bit length. -/
theorem generateKey_rejects_small_and_sizes :
    (∀ bits e : Nat, ∀ bases cands : List Nat, bits < 512 →
      generateKey bits e bases cands = .error .KeyTooSmall) ∧
    (∀ bits e p q : Nat, ∀ bases cands : List Nat, 512 ≤ bits →
      bits % 2 = 0 →
      pickPrimes (suitableCand (bits / 2) e bases) cands = some (p, q) →
      ∃ key, generateKey bits e bases cands = .ok key ∧
        2 ^ (bits - 1) ≤ key.n ∧ key.n < 2 ^ bits) := by
  constructor
  · intro bits e bases cands h
    simp [generateKey, h]
  · intro bits e p q bases cands h1 h2 h3
    exact generateKey_ok h1 h2 h3

set_option maxRecDepth 1000000 in
/-- Witness for C8: `bits = 256` fails with `KeyTooSmall`; `bits = 512`
with `e = 65537` and two concrete suitable 256-bit prime candidates
succeeds with a modulus of exactly 512 bits. -/
theorem generateKey_rejects_small_and_sizes_witness :
    generateKey 256 65537 [2] [] = .error .KeyTooSmall ∧
      ∃ key, generateKey 512 65537 [2]
          [105615050144192701685171191404408697202103677419636998840677132288467639730177,
            97727844847021994037911351361092308947449789303984235811622282205897385050113] =
          .ok key ∧ 2 ^ (512 - 1) ≤ key.n ∧ key.n < 2 ^ 512 :=
  ⟨generateKey_rejects_small_and_sizes.1 256 65537 [2] [] (by norm_num),
    generateKey_rejects_small_and_sizes.2 512 65537
      105615050144192701685171191404408697202103677419636998840677132288467639730177
      97727844847021994037911351361092308947449789303984235811622282205897385050113
      [2]
      [105615050144192701685171191404408697202103677419636998840677132288467639730177,
        97727844847021994037911351361092308947449789303984235811622282205897385050113]
      (by norm_num) (by norm_num) (by decide)⟩

/-- C9: padding decode failures are uniform: every decode error (for either
scheme) is the single generic `InvalidPadding`, and the number of byte
operations a decode performs depends only on the input length — never on
the input content or on which check failed. -/
theorem padding_failures_uniform (hash : List Nat → List Nat) (hLen : Nat)
    (hH : ∀ x, (hash x).length = hLen) (hpos : 0 < hLen)
    (em₁ em₂ : List Nat) (hl : em₁.length = em₂.length) :
    (pkcs1UnpadT em₁).2 = (pkcs1UnpadT em₂).2 ∧
    (oaepUnpadT hash hLen em₁).2 = (oaepUnpadT hash hLen em₂).2 ∧
    (∀ ε, (pkcs1UnpadT em₁).1 = .error ε → ε = .InvalidPadding) ∧
    (∀ ε, (oaepUnpadT hash hLen em₁).1 = .error ε →
      ε = .InvalidPadding) := by
  refine ⟨?_, ?_, pkcs1UnpadT_error em₁, oaepUnpadT_error hash hLen em₁⟩
  · rw [pkcs1UnpadT_steps, pkcs1UnpadT_steps, hl]
  · cases em₁ with
    | nil =>
      cases em₂ with
      | nil => rfl
      | cons z s => simp at hl
    | cons y r =>
      cases em₂ with
      | nil => simp at hl
      | cons z s =>
        rw [oaepUnpadT_steps_cons hH hpos, oaepUnpadT_steps_cons hH hpos]
        have hr : r.length = s.length := by simpa using hl
        rw [hr]

/-- Witness for C9: two same-length invalid encodings (failing different
checks) take the same number of byte operations and fail identically. -/
theorem padding_failures_uniform_witness :
    ((pkcs1UnpadT [0, 1, 2]).2 = (pkcs1UnpadT [3, 4, 5]).2 ∧
    (oaepUnpadT (fun _ => [0]) 1 [0, 1, 2]).2 =
      (oaepUnpadT (fun _ => [0]) 1 [3, 4, 5]).2 ∧
    (∀ ε, (pkcs1UnpadT [0, 1, 2]).1 = .error ε → ε = .InvalidPadding) ∧
    (∀ ε, (oaepUnpadT (fun _ => [0]) 1 [0, 1, 2]).1 = .error ε →
      ε = .InvalidPadding)) :=
  padding_failures_uniform (fun _ => [0]) 1 (fun _ => rfl) (by norm_num)
    [0, 1, 2] [3, 4, 5] rfl

end RSA
